import Mathlib

/-!
# Verification of the docflow document-normalization core

Shallow embedding of the cleaner and normalizer services
(`services/cleaner/cleaner_service` and `services/normalizer/normalizer_service`)
together with proofs about their specified properties.  Text is modelled as
`List Char`; Python strings used only as opaque identifiers stay `String`.
Recursive definitions are written structurally (with an explicit fuel argument
where the source loop advances by a computed amount) so that every definition
evaluates inside the kernel.
-/

set_option maxRecDepth 4000

namespace Docflow

/-- Characters matched by Python's `\s` (with its default Unicode semantics)
and stripped by `str.strip()`: ASCII whitespace, the C1 control separators,
NEL, NBSP and the Unicode space code points. -/
def isSpace (c : Char) : Bool :=
  c ∈ [' ', '\t', '\n', '\r', '\x0b', '\x0c',
       '\x1c', '\x1d', '\x1e', '\x1f', '\x85', '\xa0',
       ' ', ' ', ' ', ' ', ' ', ' ', ' ',
       ' ', ' ', ' ', ' ', ' ', ' ', ' ',
       ' ', ' ', '　']

/-- `text.strip()`: drop leading and trailing whitespace. -/
def pyStrip (s : List Char) : List Char :=
  ((s.dropWhile isSpace).reverse.dropWhile isSpace).reverse

/-- `_WHITESPACE_RE.sub(" ", text)` (`_WHITESPACE_RE = re.compile(r"\s+")`):
every maximal run of whitespace becomes a single space.  The flag records
whether the previous character belonged to a whitespace run. -/
def collapseWs : Bool → List Char → List Char
  | _, [] => []
  | inRun, c :: rest =>
    if isSpace c then
      if inRun then collapseWs true rest else ' ' :: collapseWs true rest
    else c :: collapseWs false rest

/-- `_normalize_whitespace` from `normalizer_service/services/normalizer.py`:
collapse all whitespace runs to one space and strip the edges. -/
def normalizeWhitespace (text : List Char) : List Char :=
  if text = [] then [] else pyStrip (collapseWs false text)

/-- Is `prev` one of the sentence-ending characters of the lookbehind
`(?<=[.!?])` in `_SENTENCE_SPLIT_RE`? -/
def isSentEnd : Option Char → Bool
  | some c => c == '.' || c == '!' || c == '?'
  | none => false

/-- Prepend a character to the first fragment of a fragment list. -/
def consHead (c : Char) : List (List Char) → List (List Char)
  | [] => [[c]]
  | f :: fs => (c :: f) :: fs

/-- `_SENTENCE_SPLIT_RE.split(text)` with `re.compile(r"(?<=[.!?])\s+")`:
cut the text at every maximal whitespace run that immediately follows `.`,
`!` or `?`.  `skipping` is true while the scanner is inside such a run;
`prev` is the previously read character. -/
def sentSplitAux : Bool → Option Char → List Char → List (List Char)
  | _, _, [] => [[]]
  | true, _, c :: rest =>
    if isSpace c then sentSplitAux true none rest
    else consHead c (sentSplitAux false (some c) rest)
  | false, prev, c :: rest =>
    if isSpace c && isSentEnd prev then [] :: sentSplitAux true none rest
    else consHead c (sentSplitAux false (some c) rest)

/-- `_split_into_sentences` from `normalizer.py`: strip, split on sentence
boundaries, strip each part, keep the non-empty parts, and fall back to the
whole text when nothing remains. -/
def splitIntoSentences (text : List Char) : List (List Char) :=
  let t := pyStrip text
  if t = [] then []
  else
    let parts := sentSplitAux false none t
    let sentences := (parts.map pyStrip).filter (fun p => p ≠ [])
    if sentences = [] then [t] else sentences

/-- `" ".join(parts)`. -/
def joinSp : List (List Char) → List Char
  | [] => []
  | [p] => p
  | p :: q :: rest => p ++ ' ' :: joinSp (q :: rest)

/-- The `while start < sent_len` loop of `_build_chunks`: cut an over-long
sentence into consecutive windows of `maxLen` characters.  `acc` is the
current window reversed and `k` its remaining capacity; the invariant
`acc.length + k = maxLen` holds at every call made from `hardSplit`. -/
def hardSplitAux (maxLen : Nat) : List Char → List Char → Nat → List (List Char)
  | [], acc, _ => if acc = [] then [] else [acc.reverse]
  | c :: rest, acc, 0 => acc.reverse :: hardSplitAux maxLen rest [c] (maxLen - 1)
  | c :: rest, acc, k + 1 => hardSplitAux maxLen rest (c :: acc) k

/-- Character-window split of a sentence longer than the limit. -/
def hardSplit (maxLen : Nat) (s : List Char) : List (List Char) :=
  hardSplitAux maxLen s [] maxLen

/-- The sentence-packing loop of `TextNormalizer._build_chunks`: greedily pack
sentences into the current chunk (`parts`, with running joined length `len`),
flushing the chunk when the next sentence does not fit and hard-splitting
sentences longer than `maxLen`. -/
def packChunks (maxLen : Nat) : List (List Char) → List (List Char) → Nat → List (List Char)
  | [], parts, _ => if parts = [] then [] else [joinSp parts]
  | s :: rest, parts, len =>
    if s = [] then packChunks maxLen rest parts len
    else if maxLen < s.length then
      (if parts = [] then [] else [joinSp parts]) ++ hardSplit maxLen s
        ++ packChunks maxLen rest [] 0
    else if len + (if parts = [] then 0 else 1) + s.length ≤ maxLen then
      packChunks maxLen rest (parts ++ [s]) (len + (if parts = [] then 0 else 1) + s.length)
    else
      (if parts = [] then [] else [joinSp parts]) ++ packChunks maxLen rest [s] s.length

/-- `TextNormalizer._build_chunks`: normalize whitespace, split into
sentences, pack them into chunks of at most `maxLen` characters. -/
def buildChunks (maxLen : Nat) (text : List Char) : List (List Char) :=
  let t := normalizeWhitespace text
  if t = [] then []
  else packChunks maxLen (splitIntoSentences t) [] 0

example : buildChunks 50 (String.toList (String.mk (List.replicate 120 'x')))
    = [String.toList (String.mk (List.replicate 50 'x')),
       String.toList (String.mk (List.replicate 50 'x')),
       String.toList (String.mk (List.replicate 20 'x'))] := by decide

example : buildChunks 1000 "Hello world. This is a test.".toList
    = ["Hello world. This is a test.".toList] := by decide

example : buildChunks 14 "Hello world. This is a test.".toList
    = ["Hello world.".toList, "This is a test".toList, ".".toList] := by decide

/-! ## Normalizer data model (`normalizer_service/models/dto.py`) -/

/-- `NormalizerItemIn`: the cleaned item received by the normalizer.  `path`
and `url` are `Optional[str]`; the content fields are character lists. -/
structure NormalizerItemIn where
  source : String
  path : Option String
  url : Option String
  raw_content : List Char
  cleaned_content : List Char
deriving DecidableEq, Repr

/-- `s.lower()` (kernel-computable form of ASCII lowercasing). -/
def lowerStr (s : String) : String :=
  String.mk (s.toList.map Char.toLower)

/-- The pydantic validation of `NormalizerItemIn`: `source` has
`min_length=1`, and the `validate_location` model validator requires a truthy
`path` for `source="file"` and a truthy `url` for `source="http"` (Python
truthiness: `not self.path` holds for both `None` and `""`). -/
def NormalizerItemIn.validLocation (it : NormalizerItemIn) : Bool :=
  it.source != "" &&
  (lowerStr it.source != "file" || (it.path != none && it.path != some "")) &&
  (lowerStr it.source != "http" || (it.url != none && it.url != some ""))

/-- Case-insensitive character comparison (ASCII case folding, which is how
the `(?i)` patterns of this code base are exercised). -/
def lowerEq (a b : Char) : Bool := a.toLower == b.toLower

/-- Case-insensitive prefix test. -/
def isPrefixCI : List Char → List Char → Bool
  | [], _ => true
  | _ :: _, [] => false
  | p :: ps, c :: cs => lowerEq p c && isPrefixCI ps cs

/-- Index of the first case-insensitive occurrence of `pat`, if any. -/
def findCI (pat : List Char) : List Char → Option Nat
  | [] => if pat = [] then some 0 else none
  | c :: rest =>
    if isPrefixCI pat (c :: rest) then some 0
    else (findCI pat rest).map (· + 1)

/-- Everything before the first occurrence of `c`. -/
def takeUntilCh (c : Char) (s : List Char) : List Char :=
  s.takeWhile (fun x => x != c)

/-- `str.split(sep)` for a one-character separator, keeping empty parts. -/
def splitOnCh (sep : Char) : List Char → List (List Char)
  | [] => [[]]
  | c :: rest =>
    if c == sep then [] :: splitOnCh sep rest
    else consHead c (splitOnCh sep rest)

/-- `Path(p).name` (CPython `pathlib`, POSIX flavour): the last kept path
component, where empty and `.` components are dropped. -/
def pathName (p : String) : String :=
  match ((splitOnCh '/' p.toList).filter (fun s => s != [] && s != ['.'])).getLast? with
  | some s => String.mk s
  | none => ""

/-- `s.rstrip("/")`. -/
def rstripSlash (s : List Char) : List Char :=
  (s.reverse.dropWhile (fun c => c == '/')).reverse

/-- The `path` component of `urllib.parse.urlparse(u)`, modelled for the URLs
this pipeline sees: everything after `scheme://netloc` up to the first `?` or
`#`; for a string without `://` the whole remainder counts as the path. -/
def urlparsePath (u : String) : List Char :=
  let s := takeUntilCh '?' (takeUntilCh '#' u.toList)
  match findCI "://".toList s with
  | none => s
  | some i =>
    let afterScheme := s.drop (i + 3)
    match findCI ['/'] afterScheme with
    | none => []
    | some j => afterScheme.drop j

/-- The `if item.url:` branch of `TextNormalizer._derive_title`: last
non-empty segment of the URL path, falling back to the whole URL. -/
def titleFromUrl (it : NormalizerItemIn) : String :=
  match it.url with
  | some u =>
    if u != "" then
      let path := let p := rstripSlash (urlparsePath u); if p = [] then ['/'] else p
      let lastSeg := (splitOnCh '/' path).getLastD []
      if lastSeg != [] then String.mk lastSeg else u
    else "document"
  | none => "document"

/-- `TextNormalizer._derive_title`: file name from `path` when truthy and
non-empty, else a segment of the URL, else `"document"`. -/
def deriveTitle (it : NormalizerItemIn) : String :=
  match it.path with
  | some p =>
    if p != "" then
      let name := pathName p
      if name != "" then name else titleFromUrl it
    else titleFromUrl it
  | none => titleFromUrl it

/-- Per-chunk `Metadata` from `normalizer_service/models/dto.py`. -/
structure Metadata where
  source : String
  path : String
  url : Option String
  title : String
  created_at : String
  chunk_index : Nat
  total_chunks : Nat
deriving DecidableEq, Repr

/-- Pydantic construction of `Metadata`: `path` has `min_length=1`, so an
empty derived path raises a `ValidationError`.  (The other `min_length`
constraints — on `source`, `title`, `created_at` — hold for every input the
claims quantify over and are not modelled as checks.) -/
def mkMetadata (source path : String) (url : Option String) (title created_at : String)
    (chunk_index total_chunks : Nat) : Except String Metadata :=
  if path = "" then Except.error "Metadata.path: string should have at least 1 character"
  else Except.ok ⟨source, path, url, title, created_at, chunk_index, total_chunks⟩

/-- `NormalizedDocument`: one emitted chunk. -/
structure NormalizedDocument where
  external_id : String
  text : List Char
  metadata : Metadata
deriving DecidableEq, Repr

instance {ε α : Type} [DecidableEq ε] [DecidableEq α] : DecidableEq (Except ε α) := fun a b =>
  match a, b with
  | Except.ok x, Except.ok y =>
    if h : x = y then isTrue (by rw [h]) else isFalse (by intro hc; cases hc; exact h rfl)
  | Except.error x, Except.error y =>
    if h : x = y then isTrue (by rw [h]) else isFalse (by intro hc; cases hc; exact h rfl)
  | Except.ok _, Except.error _ => isFalse (by intro hc; cases hc)
  | Except.error _, Except.ok _ => isFalse (by intro hc; cases hc)

/-- Python `f"...{x}..."` rendering of an `Optional[str]`: `None` prints as
the string `"None"`. -/
def pyStrOpt : Option String → String
  | none => "None"
  | some s => s

/-- `external_id = f"{item.source}:{item.path}:{idx}"` (`normalizer.py` line
185): it interpolates the raw `item.path`, not the URL-fallback `meta_path`. -/
def externalId (it : NormalizerItemIn) (idx : Nat) : String :=
  it.source ++ ":" ++ pyStrOpt it.path ++ ":" ++ toString idx

/-- The `meta_path` derivation (`normalizer.py` lines 190–195): `item.path`
when not `None`, else `str(item.url)` when not `None`, else `""`. -/
def metaPath (it : NormalizerItemIn) : String :=
  match it.path with
  | some p => p
  | none =>
    match it.url with
    | some u => u
    | none => ""

/-- The `for idx, chunk_text in enumerate(chunks)` loop of
`TextNormalizer.normalize`: one `NormalizedDocument` per chunk; a
`ValidationError` raised by `Metadata` aborts the whole call. -/
def buildDocs (it : NormalizerItemIn) (created_at title : String) (total : Nat) :
    Nat → List (List Char) → Except String (List NormalizedDocument)
  | _, [] => Except.ok []
  | idx, chunk :: rest =>
    match mkMetadata it.source (metaPath it) it.url title created_at idx total with
    | Except.error e => Except.error e
    | Except.ok md =>
      match buildDocs it created_at title total (idx + 1) rest with
      | Except.error e => Except.error e
      | Except.ok docs =>
        Except.ok ({ external_id := externalId it idx, text := chunk, metadata := md } :: docs)

/-- The per-item body of `TextNormalizer.normalize`: chunk the cleaned
content, skip the item when no chunks result, otherwise derive the shared
title/metadata and emit the documents.  `created_at` is the timestamp the
`datetime.now(timezone.utc)` call produces for this item, injected as a
parameter. -/
def normalizeItem (maxLen : Nat) (created_at : String) (it : NormalizerItemIn) :
    Except String (List NormalizedDocument) :=
  let chunks := buildChunks maxLen it.cleaned_content
  if chunks = [] then Except.ok []
  else buildDocs it created_at (deriveTitle it) chunks.length 0 chunks

/-- `TextNormalizer.normalize` over the whole item list; `clock k` models the
timestamp drawn while processing the `k`-th item. -/
def normalizeItems (maxLen : Nat) (clock : Nat → String) :
    Nat → List NormalizerItemIn → Except String (List NormalizedDocument)
  | _, [] => Except.ok []
  | k, it :: rest =>
    match normalizeItem maxLen (clock k) it with
    | Except.error e => Except.error e
    | Except.ok docs =>
      match normalizeItems maxLen clock (k + 1) rest with
      | Except.error e => Except.error e
      | Except.ok more => Except.ok (docs ++ more)

example : deriveTitle ⟨"file", some "docs/a.txt", none, [], []⟩ = "a.txt" := by decide
example : deriveTitle ⟨"http", none, some "https://example.com/a/b.html", [], []⟩ = "b.html" := by decide
example : deriveTitle ⟨"http", none, some "https://example.com/", [], []⟩ = "https://example.com/" := by decide
example : deriveTitle ⟨"other", none, none, [], []⟩ = "document" := by decide

example :
    normalizeItem 1000 "T" ⟨"file", some "doc.txt", none, [], "Hello.".toList⟩
      = Except.ok [{ external_id := "file:doc.txt:0", text := "Hello.".toList,
                     metadata := ⟨"file", "doc.txt", none, "doc.txt", "T", 0, 1⟩ }] := by decide

example :
    normalizeItem 1000 "T" ⟨"http", none, some "https://example.com", [], "Hello.".toList⟩
      = Except.ok [{ external_id := "http:None:0", text := "Hello.".toList,
                     metadata := ⟨"http", "https://example.com", some "https://example.com",
                                  "https://example.com", "T", 0, 1⟩ }] := by decide

example :
    normalizeItem 1000 "T" ⟨"note", none, none, [], "Hello.".toList⟩
      = Except.error "Metadata.path: string should have at least 1 character" := by decide

/-! ## Cleaner text transform (`cleaner_service/services/cleaner.py`) -/

/-- `re.sub(pattern, " ", text)` scanning: at each position try the matcher
`m`; on a match of `n + 1` characters emit one space and resume after the
match (none of the patterns here can match the empty string).  `fuel` bounds
the recursion; `fuel = s.length` always suffices because every step consumes
at least one character. -/
def subSpaceF (m : List Char → Option Nat) : Nat → List Char → List Char
  | _, [] => []
  | 0, s => s
  | fuel + 1, c :: rest =>
    match m (c :: rest) with
    | some (n + 1) => ' ' :: subSpaceF m fuel (rest.drop n)
    | _ => c :: subSpaceF m fuel rest

def subSpace (m : List Char → Option Nat) (s : List Char) : List Char :=
  subSpaceF m s.length s

/-- Named character references, modelled from CPython `html.unescape`
(restricted to references with a terminating `;` that these texts use). -/
def entityTable : List (List Char × Char) :=
  [("amp".toList, '&'), ("lt".toList, '<'), ("gt".toList, '>'),
   ("quot".toList, '"'), ("nbsp".toList, '\xa0')]

/-- Match one `&name;` reference at the head of `s`: consumed length and the
replacement character. -/
def entityMatch (s : List Char) : Option (Nat × Char) :=
  match s with
  | c :: rest =>
    if c = '&' then
      entityTable.findSome? (fun nc =>
        if rest.take (nc.1.length + 1) = nc.1 ++ [';'] then some (nc.1.length + 2, nc.2)
        else none)
    else none
  | [] => none

/-- `html.unescape(text)` for the modelled references; any other `&...` text
is left unchanged, as CPython leaves unknown references. -/
def unescapeF : Nat → List Char → List Char
  | _, [] => []
  | 0, s => s
  | fuel + 1, c :: rest =>
    match entityMatch (c :: rest) with
    | some (n + 1, r) => r :: unescapeF fuel (rest.drop n)
    | _ => c :: unescapeF fuel rest

def htmlUnescape (s : List Char) : List Char := unescapeF s.length s

/-- Python `\w` on the ASCII range these texts use. -/
def isWordCh (c : Char) : Bool := c.isAlphanum || c == '_'

/-- The character class `[\w-]` of `_CSS_BLOCK_RE` and of its lookbehind. -/
def isWordDash (c : Char) : Bool := isWordCh c || c == '-'

/-- Match `_STYLE_SCRIPT_BLOCK_RE = (?is)<(style|script)\b[^>]*>.*?</\1>` at
the head of `s`: an opening `style`/`script` tag (case-insensitive, `\b`
boundary, attributes up to the first `>`) followed lazily by the nearest
matching closing tag of the same name; returns the consumed length. -/
def matchStyleScript (s : List Char) : Option Nat :=
  match s with
  | c :: rest =>
    if c = '<' then
      ["style".toList, "script".toList].findSome? (fun tag =>
        if isPrefixCI tag rest then
          let after := rest.drop tag.length
          let boundary := match after with
            | [] => true
            | a :: _ => !isWordCh a
          if boundary then
            match after.findIdx? (fun x => x == '>') with
            | some j =>
              let afterOpen := after.drop (j + 1)
              match findCI ('<' :: '/' :: tag ++ ['>']) afterOpen with
              | some k => some (1 + tag.length + j + 1 + k + tag.length + 3)
              | none => none
            | none => none
          else none
        else none)
    else none
  | [] => none

/-- Match `_HTML_COMMENT_RE = (?s)<!--.*?-->` at the head of `s`. -/
def matchComment (s : List Char) : Option Nat :=
  if s.take 4 = "<!--".toList then
    match findCI "-->".toList (s.drop 4) with
    | some k => some (4 + k + 3)
    | none => none
  else none

/-- Match `_TAG_RE = (?s)<[^>]+>` at the head of `s`: `<`, at least one
non-`>` character, then the first `>`. -/
def matchTag (s : List Char) : Option Nat :=
  match s with
  | c :: rest =>
    if c = '<' then
      match rest.findIdx? (fun x => x == '>') with
      | some j => if j = 0 then none else some (j + 2)
      | none => none
    else none
  | [] => none

/-- The `(?:[#.:][\w-]+|\[[^\]]+\])*` tail of `_SELECTOR_RE`, greedy;
returns the consumed length.  Greedy matching without backtracking agrees
with the regex here: nothing that may follow the selector (`,`, whitespace,
`{`) starts with `#`, `.`, `:` or `[`, so giving an iteration back never
enables a match that greediness missed. -/
def selSuffixF : Nat → List Char → Nat
  | _, [] => 0
  | 0, _ => 0
  | fuel + 1, c :: rest =>
    if c == '#' || c == '.' || c == ':' then
      let n := (rest.takeWhile isWordDash).length
      if n = 0 then 0 else 1 + n + selSuffixF fuel (rest.drop n)
    else if c == '[' then
      match rest.findIdx? (fun x => x == ']') with
      | some j => if j = 0 then 0 else 1 + j + 1 + selSuffixF fuel (rest.drop (j + 1))
      | none => 0
    else 0

/-- `_SELECTOR_RE = (?:[#.])?[_a-zA-Z][\w\-]*(?:[#.:][\w\-]+|\[[^\]]+\])*`
matched at the head of `s`; returns the consumed length. -/
def matchSelector (s : List Char) : Option Nat :=
  let start : Nat × List Char :=
    match s with
    | c :: rest => if c == '#' || c == '.' then (1, rest) else (0, s)
    | [] => (0, s)
  match start.2 with
  | c :: rest =>
    if c.isAlpha || c == '_' then
      let n := (rest.takeWhile isWordDash).length
      let s2 := rest.drop n
      some (start.1 + 1 + n + selSuffixF s2.length s2)
    else none
  | [] => none

/-- The `(?:\s*,\s*SELECTOR)*` part of `_CSS_BLOCK_RE`, greedy; returns the
consumed length. -/
def commaSelF : Nat → List Char → Nat
  | 0, _ => 0
  | fuel + 1, s =>
    let k := (s.takeWhile isSpace).length
    match s.drop k with
    | c :: rest =>
      if c == ',' then
        let k2 := (rest.takeWhile isSpace).length
        match matchSelector (rest.drop k2) with
        | some n =>
          let used := k + 1 + k2 + n
          used + commaSelF fuel (s.drop used)
        | none => 0
      else 0
    | [] => 0

/-- Match `_CSS_BLOCK_RE` at the head of `s` (the caller checks the
`(?<![\w-])` lookbehind): a selector list, optional whitespace, then a brace
block `\{[^}]*:[^}]*\}` — whose inside cannot cross a closing brace and must
contain a colon. -/
def matchCssBlock (s : List Char) : Option Nat :=
  match matchSelector s with
  | none => none
  | some n =>
    let s1 := s.drop n
    let m := commaSelF s1.length s1
    let s2 := s1.drop m
    let k := (s2.takeWhile isSpace).length
    match s2.drop k with
    | c :: rest =>
      if c == '\x7b' then
        match rest.findIdx? (fun x => x == '\x7d') with
        | some j =>
          if (rest.take j).contains ':' then some (n + m + k + 1 + j + 1) else none
        | none => none
      else none
    | [] => none

/-- `_CSS_BLOCK_RE.sub(" ", text)`: left-to-right scan; a match may start
only where the preceding character of the original text is not `[\w-]` (the
lookbehind), and scanning resumes after the replaced block, whose final
original character is always `}`. -/
def cssSubF : Nat → Option Char → List Char → List Char
  | _, _, [] => []
  | 0, _, s => s
  | fuel + 1, prev, c :: rest =>
    let lookOk := match prev with
      | none => true
      | some p => !isWordDash p
    if lookOk then
      match matchCssBlock (c :: rest) with
      | some (n + 1) => ' ' :: cssSubF fuel (some '\x7d') (rest.drop n)
      | _ => c :: cssSubF fuel (some c) rest
    else c :: cssSubF fuel (some c) rest

def cssPass (s : List Char) : List Char := cssSubF s.length none s

/-- The bounded fix-point loop (`for _ in range(3)`) around
`_CSS_BLOCK_RE.sub` in `_clean_text`. -/
def cssFix (t : List Char) : List Char :=
  let n1 := cssPass t
  if n1 = t then t
  else
    let n2 := cssPass n1
    if n2 = n1 then n1
    else cssPass n2

/-- `_clean_text`: decode entities, drop `<style>`/`<script>` blocks,
comments and tags (each match replaced by a space), remove leftover CSS rule
blocks, then collapse whitespace runs and strip. -/
def cleanText (text : List Char) : List Char :=
  if text = [] then []
  else
    let t1 := htmlUnescape text
    let t2 := subSpace matchStyleScript t1
    let t3 := subSpace matchComment t2
    let t4 := subSpace matchTag t3
    let t5 := cssFix t4
    pyStrip (collapseWs false t5)

example : cleanText "<p>Hello</p>".toList = "Hello".toList := by decide
example : cleanText "Hello&nbsp;world".toList = "Hello world".toList := by decide
example : cleanText "Rock &amp; Roll".toList = "Rock & Roll".toList := by decide
example : cleanText "<script>alert(1)</script>Hi".toList = "Hi".toList := by decide
example : cleanText "<style>body\x7bcolor:red\x7d</style>Hi".toList = "Hi".toList := by decide
example : cleanText "Example body\x7bbackground:#eee\x7d Domain".toList
    = "Example Domain".toList := by decide
example : cleanText "Keep \x7bthis\x7d text".toList = "Keep \x7bthis\x7d text".toList := by decide
example : cleanText "Hello a:link,a:visited\x7bcolor:#348\x7d world".toList
    = "Hello world".toList := by decide
example : cleanText "Start .btn-primary\x7bcolor:#fff\x7d End".toList
    = "Start End".toList := by decide
example : cleanText "Start #header\x7bheight:10px\x7d End".toList
    = "Start End".toList := by decide
example : cleanText "Line1\n\nLine2\t\tLine3".toList = "Line1 Line2 Line3".toList := by decide
example : cleanText "  <p>Hi,&nbsp;&nbsp;world!</p>\n".toList = "Hi, world!".toList := by decide

/-! ## Service DTOs and endpoints (`main.py` of cleaner and normalizer) -/

/-- `PipelineContext`: the per-request identity threaded through the
pipeline. -/
structure PipelineContext where
  space_id : String
  tenant_id : Option String
  run_id : Option String
  started_at : String
deriving DecidableEq, Repr

structure CleanItemIn where
  source : String
  path : Option String
  url : Option String
  content : List Char
deriving DecidableEq, Repr

structure CleanItemOut where
  source : String
  path : Option String
  url : Option String
  raw_content : List Char
  cleaned_content : List Char
deriving DecidableEq, Repr

structure CleanRequest where
  context : PipelineContext
  items : List CleanItemIn
deriving DecidableEq, Repr

structure CleanResponse where
  context : PipelineContext
  items : List CleanItemOut
deriving DecidableEq, Repr

/-- `TextCleaner.clean`: order-preserving, one output per input. -/
def cleanItems (items : List CleanItemIn) : List CleanItemOut :=
  items.map (fun it =>
    { source := it.source, path := it.path, url := it.url,
      raw_content := it.content, cleaned_content := cleanText it.content })

/-- Pydantic construction of `CleanResponse`: `context` is a required field
with no default, so constructing one without it raises a `ValidationError`. -/
def mkCleanResponse (context : Option PipelineContext) (items : List CleanItemOut) :
    Except String CleanResponse :=
  match context with
  | some ctx => Except.ok ⟨ctx, items⟩
  | none => Except.error "CleanResponse: context: field required"

/-- `clean_endpoint` from `cleaner_service/main.py`: cleans the items and
returns `CleanResponse(items=cleaned_items)` — no `context` argument is
passed to the response constructor. -/
def clean_endpoint (req : CleanRequest) : Except String CleanResponse :=
  mkCleanResponse none (cleanItems req.items)

structure NormalizeRequest where
  context : PipelineContext
  items : List NormalizerItemIn
deriving Repr

structure NormalizeResponse where
  context : PipelineContext
  items : List NormalizedDocument
deriving Repr

/-- Pydantic construction of `NormalizeResponse`: `context` is required. -/
def mkNormalizeResponse (context : Option PipelineContext)
    (items : List NormalizedDocument) : Except String NormalizeResponse :=
  match context with
  | some ctx => Except.ok ⟨ctx, items⟩
  | none => Except.error "NormalizeResponse: context: field required"

/-- `normalize_endpoint` from `normalizer_service/main.py`: runs the default
`TextNormalizer()` (`max_chunk_chars = 1000`) and returns
`NormalizeResponse(items=normalized_items)` — again without `context`. -/
def normalize_endpoint (clock : Nat → String) (req : NormalizeRequest) :
    Except String NormalizeResponse :=
  match normalizeItems 1000 clock 0 req.items with
  | Except.error e => Except.error e
  | Except.ok docs => mkNormalizeResponse none docs

/-- Is an `Except` value a success? -/
def isOkE {ε α : Type} : Except ε α → Bool
  | Except.ok _ => true
  | Except.error _ => false

/-! ## Concrete inputs used by witnesses and counterexamples -/

/-- A well-formed file item whose cleaned content is one short sentence. -/
def itemFile : NormalizerItemIn :=
  ⟨"file", some "doc.txt", none, [], "Hello.".toList⟩

/-- The single document `normalizeItem 1000 "T" itemFile` emits. -/
def docFile0 : NormalizedDocument :=
  ⟨"file:doc.txt:0", "Hello.".toList, ⟨"file", "doc.txt", none, "doc.txt", "T", 0, 1⟩⟩

def docsFile : List NormalizedDocument := [docFile0]

/-- A well-formed file item whose cleaned content is whitespace only. -/
def itemWs : NormalizerItemIn :=
  ⟨"file", some "doc.txt", none, [], "   \n\t".toList⟩

/-- A valid item whose source is neither `file` nor `http` and that carries
neither `path` nor `url`. -/
def itemNote : NormalizerItemIn :=
  ⟨"note", none, none, [], "Hello.".toList⟩

/-- A well-formed HTTP item without a `path`. -/
def itemHttpNoPath : NormalizerItemIn :=
  ⟨"http", none, some "https://example.com", [], "Hello.".toList⟩

/-- The single document `normalizeItem 1000 "T" itemHttpNoPath` emits. -/
def docsHttpNoPath : List NormalizedDocument :=
  [⟨"http:None:0", "Hello.".toList,
    ⟨"http", "https://example.com", some "https://example.com",
     "https://example.com", "T", 0, 1⟩⟩]

/-! ## Claim theorems -/

/-- C1 (code bug): the spec requires every stage to echo the incoming
`PipelineContext` in its response, and the repository's own tests
(`test_clean_returns_context`, the integration pipeline tests) expect exactly
that — but both endpoints construct their responses without the required
`context` field, so response construction always fails and no response ever
carries the request context. -/
theorem C1_endpoints_never_return_the_request_context :
    (∀ req : CleanRequest,
        clean_endpoint req = Except.error "CleanResponse: context: field required") ∧
    (∀ (clock : Nat → String) (req : NormalizeRequest),
        isOkE (normalize_endpoint clock req) = false) := by
  refine ⟨fun req => rfl, fun clock req => ?_⟩
  unfold normalize_endpoint
  cases h : normalizeItems 1000 clock 0 req.items <;> rfl

/-- C9: the CSS-fragment removal step removes `selector{property:value}`
without deleting adjacent word characters, and leaves curly-brace text
lacking a colon unchanged. -/
theorem C9_css_block_removal_examples :
    cleanText "Example body\x7bbackground:#eee\x7d Domain".toList
        = "Example Domain".toList ∧
    cleanText "Keep \x7bthis\x7d text".toList = "Keep \x7bthis\x7d text".toList := by
  exact ⟨by decide, by decide⟩

/-- C10: entities are decoded before markup stripping, so an entity-escaped
script block — in an input containing no literal `<` — is removed together
with its entire contents, as if it had been real markup. -/
theorem C10_escaped_script_block_is_removed :
    ('<' ∉ "A &lt;script&gt;bad stuff&lt;/script&gt; B".toList) ∧
    cleanText "A &lt;script&gt;bad stuff&lt;/script&gt; B".toList = "A B".toList := by
  exact ⟨by decide, by decide⟩

/-- C2 counterexample: for a valid HTTP item without `path`, the emitted
`external_id` is `"http:None:0"` — built from the raw `item.path` (rendered
`"None"`), not from the URL-fallback `meta_path`, and it does not contain the
URL (the URL contains `'s'`, the id does not). -/
theorem C2_counterexample :
    NormalizerItemIn.validLocation itemHttpNoPath = true ∧
    normalizeItem 1000 "T" itemHttpNoPath = Except.ok docsHttpNoPath ∧
    metaPath itemHttpNoPath = "https://example.com" ∧
    docsHttpNoPath.map (fun d => d.external_id) = ["http:None:0"] ∧
    ("http:None:0" : String)
        ≠ itemHttpNoPath.source ++ ":" ++ metaPath itemHttpNoPath ++ ":" ++ toString 0 ∧
    's' ∈ "https://example.com".toList ∧ 's' ∉ "http:None:0".toList := by
  refine ⟨by decide, by decide, by decide, by decide, by decide, by decide, by decide⟩

/-- C7 counterexample: a valid item whose source is neither `file` nor
`http` and that has neither `path` nor `url` derives `meta_path = ""`, which
`Metadata`'s `min_length=1` validation rejects — `normalize` raises instead
of emitting the chunk. -/
theorem C7_counterexample :
    NormalizerItemIn.validLocation itemNote = true ∧
    normalizeItem 1000 "T" itemNote
      = Except.error "Metadata.path: string should have at least 1 character" := by
  exact ⟨by decide, by decide⟩

/-- C8 counterexample: an input with no HTML entities and no markup tags
whose CSS-rule fragment is still rewritten, so `clean` differs from plain
whitespace normalization. -/
theorem C8_counterexample :
    ('&' ∉ "Example body\x7bbackground:#eee\x7d Domain".toList) ∧
    ('<' ∉ "Example body\x7bbackground:#eee\x7d Domain".toList) ∧
    cleanText "Example body\x7bbackground:#eee\x7d Domain".toList
      ≠ normalizeWhitespace "Example body\x7bbackground:#eee\x7d Domain".toList := by
  refine ⟨by decide, by decide, by decide⟩

/-! ### Chunk length bound (C3) -/

theorem joinSp_append_singleton : ∀ (parts : List (List Char)) (s : List Char),
    parts ≠ [] → joinSp (parts ++ [s]) = joinSp parts ++ ' ' :: s
  | [], _, h => absurd rfl h
  | [_], _, _ => rfl
  | p :: q :: r, s, _ => by
    have ih := joinSp_append_singleton (q :: r) s (by simp)
    show p ++ ' ' :: joinSp ((q :: r) ++ [s]) = (p ++ ' ' :: joinSp (q :: r)) ++ ' ' :: s
    rw [ih, List.append_assoc]
    rfl

/-- Every window produced by the hard-split loop has length at most
`maxLen`, under the loop invariant `acc.length + k = maxLen`. -/
theorem hardSplitAux_length (maxLen : Nat) (hM : 1 ≤ maxLen) :
    ∀ (s acc : List Char) (k : Nat), acc.length + k = maxLen →
      ∀ p ∈ hardSplitAux maxLen s acc k, p.length ≤ maxLen := by
  intro s
  induction s with
  | nil =>
    intro acc k hk p hp
    simp only [hardSplitAux] at hp
    split at hp
    · simp at hp
    · simp only [List.mem_singleton] at hp
      subst hp
      simp only [List.length_reverse]
      omega
  | cons c rest ih =>
    intro acc k hk p hp
    cases k with
    | zero =>
      simp only [hardSplitAux] at hp
      rcases List.mem_cons.mp hp with h | h
      · subst h; simp only [List.length_reverse]; omega
      · exact ih [c] (maxLen - 1) (by simp; omega) p h
    | succ k =>
      simp only [hardSplitAux] at hp
      exact ih (c :: acc) k (by simp; omega) p hp

/-- Every chunk produced by the packing loop has length at most `maxLen`,
under the loop invariant that `len` is the joined length of the pending
`parts` and stays within the limit. -/
theorem packChunks_length (maxLen : Nat) (hM : 1 ≤ maxLen) :
    ∀ (sentences parts : List (List Char)) (len : Nat),
      (joinSp parts).length = len → len ≤ maxLen →
      ∀ ch ∈ packChunks maxLen sentences parts len, ch.length ≤ maxLen := by
  intro sentences
  induction sentences with
  | nil =>
    intro parts len hlen hle ch hch
    simp only [packChunks] at hch
    split at hch
    · simp at hch
    · simp only [List.mem_singleton] at hch
      subst hch
      omega
  | cons s rest ih =>
    intro parts len hlen hle ch hch
    simp only [packChunks] at hch
    split at hch
    · exact ih parts len hlen hle ch hch
    next hs =>
      split at hch
      next hlong =>
        rcases List.mem_append.mp hch with h1 | h2
        · rcases List.mem_append.mp h1 with ha | hb
          · split at ha
            · simp at ha
            · simp only [List.mem_singleton] at ha
              subst ha
              omega
          · exact hardSplitAux_length maxLen hM s [] maxLen (by simp) ch hb
        · exact ih [] 0 rfl (by omega) ch h2
      next hshort =>
        split at hch
        next hp =>
          split at hch
          next hfits =>
            apply ih (parts ++ [s]) (len + 0 + s.length) ?_ hfits ch hch
            subst hp
            simp only [joinSp, List.length_nil] at hlen
            simp only [List.nil_append, joinSp]
            omega
          next hnofit =>
            simp only [List.nil_append] at hch
            exact ih [s] s.length rfl (by omega) ch hch
        next hp =>
          split at hch
          next hfits =>
            apply ih (parts ++ [s]) (len + 1 + s.length) ?_ hfits ch hch
            rw [joinSp_append_singleton parts s hp]
            simp only [List.length_append, List.length_cons]
            omega
          next hnofit =>
            rcases List.mem_append.mp hch with h1 | h2
            · simp only [List.mem_singleton] at h1
              subst h1
              omega
            · exact ih [s] s.length rfl (by omega) ch h2

/-- C3: every chunk emitted by `TextNormalizer._build_chunks` has length at
most `max_chunk_chars`, for every text and every positive
`max_chunk_chars`. -/
theorem C3_chunks_respect_max_len (text : List Char) (maxLen : Nat)
    (hM : 1 ≤ maxLen) : ∀ chunk ∈ buildChunks maxLen text, chunk.length ≤ maxLen := by
  intro chunk hch
  simp only [buildChunks] at hch
  split at hch
  · simp at hch
  · exact packChunks_length maxLen hM _ [] 0 rfl (by omega) chunk hch

/-- C3 witness: a concrete run of the chunker at `max_chunk_chars = 5`. -/
theorem C3_witness : ("ab.".toList).length ≤ 5 := by
  have h := C3_chunks_respect_max_len "ab. cd.".toList 5 (by decide)
  exact h "ab.".toList (by decide)

/-! ### No character of the normalized input is dropped (C4) -/

theorem ne_of_space_of_not (c a : Char) (hc : isSpace c = false)
    (ha : isSpace a = true) : c ≠ a := fun he => by
  rw [he, ha] at hc
  exact Bool.noConfusion hc

theorem count_takeWhile_space (c : Char) (hc : isSpace c = false) (s : List Char) :
    (s.takeWhile isSpace).count c = 0 := by
  rw [List.count_eq_zero]
  intro hmem
  have h := List.mem_takeWhile_imp hmem
  simp [h] at hc

theorem count_dropWhile_space (c : Char) (hc : isSpace c = false) (s : List Char) :
    (s.dropWhile isSpace).count c = s.count c := by
  conv_rhs => rw [← List.takeWhile_append_dropWhile isSpace s]
  rw [List.count_append, count_takeWhile_space c hc s]
  omega

theorem count_pyStrip (c : Char) (hc : isSpace c = false) (s : List Char) :
    (pyStrip s).count c = s.count c := by
  unfold pyStrip
  rw [List.count_reverse, count_dropWhile_space c hc, List.count_reverse,
      count_dropWhile_space c hc]

theorem consHead_flatten (c : Char) (L : List (List Char)) :
    (consHead c L).flatten = c :: L.flatten := by
  cases L <;> simp [consHead]

theorem count_sentSplitAux (c : Char) (hc : isSpace c = false) :
    ∀ (s : List Char) (skipping : Bool) (prev : Option Char),
      ((sentSplitAux skipping prev s).flatten).count c = s.count c := by
  intro s
  induction s with
  | nil => intro skipping prev; cases skipping <;> simp [sentSplitAux]
  | cons a rest ih =>
    intro skipping prev
    cases skipping with
    | true =>
      simp only [sentSplitAux]
      split
      next ha =>
        rw [ih true none, List.count_cons_of_ne (ne_of_space_of_not c a hc ha)]
      next ha =>
        rw [consHead_flatten]
        simp [List.count_cons, ih false (some a)]
    | false =>
      simp only [sentSplitAux]
      split
      next hsp =>
        have ha : isSpace a = true ∧ isSentEnd prev = true := by simpa using hsp
        simp only [List.flatten_cons, List.nil_append]
        rw [ih true none, List.count_cons_of_ne (ne_of_space_of_not c a hc ha.1)]
      next =>
        rw [consHead_flatten]
        simp [List.count_cons, ih false (some a)]

theorem count_flatten_filter_ne_nil (c : Char) :
    ∀ L : List (List Char),
      ((L.filter (fun p => p ≠ [])).flatten).count c = (L.flatten).count c := by
  intro L
  induction L with
  | nil => simp
  | cons p ps ih =>
    rw [List.filter_cons]
    by_cases hp : p = []
    · rw [if_neg (by simp [hp])]
      rw [ih]
      subst hp
      simp
    · rw [if_pos (by simpa using hp)]
      simp only [List.flatten_cons, List.count_append]
      rw [ih]

theorem count_flatten_map_pyStrip (c : Char) (hc : isSpace c = false) :
    ∀ L : List (List Char),
      (((L.map pyStrip)).flatten).count c = (L.flatten).count c := by
  intro L
  induction L with
  | nil => simp
  | cons p ps ih =>
    simp only [List.map_cons, List.flatten_cons, List.count_append]
    rw [ih, count_pyStrip c hc]

theorem count_splitIntoSentences (c : Char) (hc : isSpace c = false) (t : List Char) :
    ((splitIntoSentences t).flatten).count c = t.count c := by
  simp only [splitIntoSentences]
  split
  next h =>
    have hcp := count_pyStrip c hc t
    rw [h] at hcp
    simp at hcp ⊢
    omega
  next h =>
    split
    next hs => simp [count_pyStrip c hc t]
    next hs =>
      rw [count_flatten_filter_ne_nil c, count_flatten_map_pyStrip c hc,
          count_sentSplitAux c hc, count_pyStrip c hc]

theorem hardSplitAux_flatten (maxLen : Nat) :
    ∀ (s acc : List Char) (k : Nat),
      (hardSplitAux maxLen s acc k).flatten = acc.reverse ++ s := by
  intro s
  induction s with
  | nil =>
    intro acc k
    simp only [hardSplitAux]
    split
    next h => subst h; simp
    next h => simp
  | cons a rest ih =>
    intro acc k
    cases k with
    | zero =>
      simp only [hardSplitAux, List.flatten_cons]
      rw [ih [a] (maxLen - 1)]
      simp
    | succ k =>
      simp only [hardSplitAux]
      rw [ih (a :: acc) k]
      simp

theorem count_joinSp (c : Char) (hc : isSpace c = false) :
    ∀ parts : List (List Char), (joinSp parts).count c = (parts.flatten).count c
  | [] => rfl
  | [p] => by simp [joinSp]
  | p :: q :: r => by
    have hcsp : c ≠ ' ' := ne_of_space_of_not c ' ' hc (by decide)
    have ih := count_joinSp c hc (q :: r)
    show (p ++ ' ' :: joinSp (q :: r)).count c = ((p :: q :: r).flatten).count c
    rw [List.count_append, List.count_cons_of_ne hcsp, ih]
    simp [List.count_append]

theorem count_joinSp_snoc (c : Char) (hc : isSpace c = false)
    (parts : List (List Char)) (s : List Char) :
    (joinSp (parts ++ [s])).count c = (joinSp parts).count c + s.count c := by
  rw [count_joinSp c hc, count_joinSp c hc, List.flatten_append]
  simp [List.count_append]

theorem count_flush (c : Char) (parts : List (List Char)) :
    ((if parts = [] then ([] : List (List Char)) else [joinSp parts]).flatten).count c
      = (joinSp parts).count c := by
  split
  next h => subst h; simp [joinSp]
  next h => simp

theorem count_packChunks (c : Char) (hc : isSpace c = false) (maxLen : Nat) :
    ∀ (sentences parts : List (List Char)) (len : Nat),
      ((packChunks maxLen sentences parts len).flatten).count c
        = (sentences.flatten).count c + (joinSp parts).count c := by
  intro sentences
  induction sentences with
  | nil =>
    intro parts len
    simp only [packChunks]
    rw [count_flush c parts]
    simp
  | cons s rest ih =>
    intro parts len
    simp only [packChunks]
    split
    next h =>
      subst h
      rw [ih parts len]
      simp
    next hs =>
      split
      next hlong =>
        simp only [hardSplit, List.flatten_append, List.count_append]
        rw [count_flush c, hardSplitAux_flatten maxLen s [] maxLen, ih [] 0]
        simp only [List.reverse_nil, List.nil_append, List.flatten_cons, List.count_append,
          joinSp, List.count_nil]
        omega
      next hshort =>
        split
        next hp =>
          split
          next hfits =>
            rw [ih (parts ++ [s]) _, count_joinSp_snoc c hc]
            simp only [List.flatten_cons, List.count_append]
            omega
          next hnofit =>
            subst hp
            simp only [List.nil_append]
            rw [ih [s] s.length]
            have h1 : joinSp [s] = s := rfl
            simp only [List.flatten_cons, List.count_append, h1, joinSp, List.count_nil]
            omega
        next hp =>
          split
          next hfits =>
            rw [ih (parts ++ [s]) _, count_joinSp_snoc c hc]
            simp only [List.flatten_cons, List.count_append]
            omega
          next hnofit =>
            simp only [List.flatten_append, List.count_append]
            rw [ih [s] s.length]
            have h1 : joinSp [s] = s := rfl
            simp only [List.flatten_cons, List.count_append, h1, List.flatten,
              List.count_nil, List.append_nil]
            omega

theorem count_buildChunks (c : Char) (hc : isSpace c = false) (maxLen : Nat)
    (text : List Char) :
    ((buildChunks maxLen text).flatten).count c = (normalizeWhitespace text).count c := by
  simp only [buildChunks]
  split
  next h => rw [h]; simp
  next h =>
    rw [count_packChunks c hc maxLen _ [] 0, count_splitIntoSentences c hc]
    simp [joinSp]

/-- C4: concatenating all emitted chunks preserves every non-whitespace
character of the whitespace-normalized input — nothing is silently
dropped (in fact the counts agree exactly). -/
theorem C4_no_character_dropped (text : List Char) (maxLen : Nat) (c : Char)
    (_hM : 1 ≤ maxLen) (hc : isSpace c = false) :
    (normalizeWhitespace text).count c ≤ ((buildChunks maxLen text).flatten).count c :=
  Nat.le_of_eq (count_buildChunks c hc maxLen text).symm

/-- C4 witness: a concrete text and character. -/
theorem C4_witness :
    (normalizeWhitespace "ab  cd.".toList).count 'a'
      ≤ ((buildChunks 5 "ab  cd.".toList).flatten).count 'a' :=
  C4_no_character_dropped "ab  cd.".toList 5 'a' (by decide) (by decide)

/-! ### Per-item document structure (C2, C5, C6, C7) -/

theorem buildDocs_ok_spec (it : NormalizerItemIn) (ca title : String) (total : Nat) :
    ∀ (chunks : List (List Char)) (idx : Nat) (docs : List NormalizedDocument),
      buildDocs it ca title total idx chunks = Except.ok docs →
      docs.map (fun d => d.external_id)
          = (List.range' idx chunks.length).map (externalId it) ∧
      docs.map (fun d => d.metadata.chunk_index) = List.range' idx chunks.length ∧
      docs.map (fun d => d.text) = chunks ∧
      ∀ d ∈ docs, d.metadata.total_chunks = total ∧ d.metadata.created_at = ca ∧
        d.metadata.path = metaPath it ∧ d.metadata.source = it.source ∧
        d.metadata.url = it.url ∧ d.metadata.title = title := by
  intro chunks
  induction chunks with
  | nil =>
    intro idx docs h
    simp only [buildDocs] at h
    cases h
    simp
  | cons ch rest ih =>
    intro idx docs h
    simp only [buildDocs] at h
    split at h
    · exact Except.noConfusion h
    next md hmd =>
      split at h
      · exact Except.noConfusion h
      next ds hds =>
        cases h
        obtain ⟨h1, h2, h3, h4⟩ := ih (idx + 1) ds hds
        unfold mkMetadata at hmd
        split at hmd
        · exact Except.noConfusion hmd
        next hpath =>
          cases hmd
          refine ⟨?_, ?_, ?_, ?_⟩
          · simp [List.range'_succ, h1]
          · simp [List.range'_succ, h2]
          · simp [h3]
          · intro d hd
            rcases List.mem_cons.mp hd with hd | hd
            · subst hd
              exact ⟨rfl, rfl, rfl, rfl, rfl, rfl⟩
            · exact h4 d hd

theorem normalizeItem_ok_spec (maxLen : Nat) (ca : String) (it : NormalizerItemIn)
    (docs : List NormalizedDocument)
    (h : normalizeItem maxLen ca it = Except.ok docs) :
    docs.map (fun d => d.external_id)
        = (List.range docs.length).map (externalId it) ∧
    docs.map (fun d => d.metadata.chunk_index) = List.range docs.length ∧
    docs.map (fun d => d.text) = buildChunks maxLen it.cleaned_content ∧
    ∀ d ∈ docs, d.metadata.total_chunks = docs.length ∧ d.metadata.created_at = ca ∧
      d.metadata.path = metaPath it := by
  simp only [normalizeItem] at h
  split at h
  next hempty =>
    cases h
    simp [hempty]
  next hne =>
    obtain ⟨h1, h2, h3, h4⟩ := buildDocs_ok_spec it ca (deriveTitle it)
      (buildChunks maxLen it.cleaned_content).length
      (buildChunks maxLen it.cleaned_content) 0 docs h
    have hlen : docs.length = (buildChunks maxLen it.cleaned_content).length := by
      rw [← h3]
      simp
    rw [List.range_eq_range', hlen]
    refine ⟨h1, h2, h3, fun d hd => ?_⟩
    obtain ⟨ht, hca, hp, _, _, _⟩ := h4 d hd
    exact ⟨ht, hca, hp⟩

/-- C2 (amended): the `external_id` of the `i`-th emitted chunk of an item is
`source`, then the Python string rendering of the raw optional `item.path`
(so the literal `"None"` when the path is absent — not the URL fallback used
for `metadata.path`), then `i`, joined by colons; in particular it is a
deterministic function of the item and the chunk position. -/
theorem C2_amended_external_id_formula (maxLen : Nat) (ca : String)
    (it : NormalizerItemIn) (docs : List NormalizedDocument)
    (h : normalizeItem maxLen ca it = Except.ok docs) :
    docs.map (fun d => d.external_id)
      = (List.range docs.length).map
          (fun i => it.source ++ ":" ++ pyStrOpt it.path ++ ":" ++ toString i) :=
  (normalizeItem_ok_spec maxLen ca it docs h).1

/-- C2 witness: the amended formula at a concrete HTTP item without path. -/
theorem C2_witness :
    docsHttpNoPath.map (fun d => d.external_id)
      = (List.range docsHttpNoPath.length).map
          (fun i => itemHttpNoPath.source ++ ":" ++ pyStrOpt itemHttpNoPath.path
              ++ ":" ++ toString i) :=
  C2_amended_external_id_formula 1000 "T" itemHttpNoPath docsHttpNoPath (by decide)

/-- C5: chunk indices of one item are exactly `0, 1, ..., total_chunks - 1`
in order, and every sibling chunk carries the same `total_chunks` (equal to
the number of emitted chunks) and the same `created_at`. -/
theorem C5_contiguous_indices_shared_metadata (maxLen : Nat) (ca : String)
    (it : NormalizerItemIn) (docs : List NormalizedDocument)
    (h : normalizeItem maxLen ca it = Except.ok docs) :
    docs.map (fun d => d.metadata.chunk_index) = List.range docs.length ∧
    ∀ d ∈ docs, d.metadata.total_chunks = docs.length ∧ d.metadata.created_at = ca := by
  obtain ⟨_, h2, _, h4⟩ := normalizeItem_ok_spec maxLen ca it docs h
  exact ⟨h2, fun d hd => ⟨(h4 d hd).1, (h4 d hd).2.1⟩⟩

/-- C5 witness: a concrete run of the normalizer. -/
theorem C5_witness :
    docsFile.map (fun d => d.metadata.chunk_index) = List.range docsFile.length ∧
    docFile0.metadata.total_chunks = docsFile.length ∧
    docFile0.metadata.created_at = "T" := by
  have h := C5_contiguous_indices_shared_metadata 1000 "T" itemFile docsFile (by decide)
  exact ⟨h.1, h.2 docFile0 (by decide)⟩

/-! ### Empty input is skipped, chunks are never empty (C6) -/

theorem collapseWs_all_space : ∀ (s : List Char), (∀ x ∈ s, isSpace x = true) →
    ∀ b, ∀ x ∈ collapseWs b s, isSpace x = true := by
  intro s
  induction s with
  | nil => intro _ b x hx; simp [collapseWs] at hx
  | cons a rest ih =>
    intro hs b x hx
    have ha : isSpace a = true := hs a (by simp)
    have hrest : ∀ y ∈ rest, isSpace y = true := fun y hy => hs y (by simp [hy])
    rw [collapseWs, if_pos ha] at hx
    cases b with
    | true => exact ih hrest true x hx
    | false =>
      rcases List.mem_cons.mp hx with h | h
      · subst h; decide
      · exact ih hrest true x h

theorem pyStrip_all_space (s : List Char) (hs : ∀ x ∈ s, isSpace x = true) :
    pyStrip s = [] := by
  unfold pyStrip
  rw [List.dropWhile_eq_nil_iff.mpr hs]
  simp

theorem normalizeWhitespace_all_space (s : List Char)
    (hs : ∀ x ∈ s, isSpace x = true) : normalizeWhitespace s = [] := by
  unfold normalizeWhitespace
  split
  · rfl
  · exact pyStrip_all_space _ (collapseWs_all_space s hs false)

theorem buildChunks_all_space (maxLen : Nat) (s : List Char)
    (hs : ∀ x ∈ s, isSpace x = true) : buildChunks maxLen s = [] := by
  simp only [buildChunks]
  rw [normalizeWhitespace_all_space s hs]
  simp

theorem hardSplitAux_ne_nil (maxLen : Nat) (hM : 1 ≤ maxLen) :
    ∀ (s acc : List Char) (k : Nat), acc.length + k = maxLen →
      ∀ p ∈ hardSplitAux maxLen s acc k, p ≠ [] := by
  intro s
  induction s with
  | nil =>
    intro acc k hk p hp
    simp only [hardSplitAux] at hp
    split at hp
    · simp at hp
    next h =>
      simp only [List.mem_singleton] at hp
      subst hp
      simpa using h
  | cons a rest ih =>
    intro acc k hk p hp
    cases k with
    | zero =>
      simp only [hardSplitAux] at hp
      rcases List.mem_cons.mp hp with h | h
      · subst h
        intro hnil
        have hlen := congrArg List.length hnil
        rw [List.length_reverse] at hlen
        simp only [List.length_nil] at hlen
        omega
      · exact ih [a] (maxLen - 1) (by simp; omega) p h
    | succ k =>
      simp only [hardSplitAux] at hp
      exact ih (a :: acc) k (by simp; omega) p hp

theorem joinSp_ne_nil : ∀ (parts : List (List Char)),
    parts ≠ [] → (∀ p ∈ parts, p ≠ []) → joinSp parts ≠ []
  | [], h, _ => absurd rfl h
  | [p], _, hall => by simpa using hall p (by simp)
  | p :: q :: r, _, _ => by
    show p ++ ' ' :: joinSp (q :: r) ≠ []
    simp

theorem packChunks_ne_nil (maxLen : Nat) (hM : 1 ≤ maxLen) :
    ∀ (sentences parts : List (List Char)),
      (∀ p ∈ parts, p ≠ []) →
      ∀ len, ∀ ch ∈ packChunks maxLen sentences parts len, ch ≠ [] := by
  intro sentences
  induction sentences with
  | nil =>
    intro parts hparts len ch hch
    simp only [packChunks] at hch
    split at hch
    · simp at hch
    next h =>
      simp only [List.mem_singleton] at hch
      subst hch
      exact joinSp_ne_nil parts h hparts
  | cons s rest ih =>
    intro parts hparts len ch hch
    simp only [packChunks] at hch
    split at hch
    next h => exact ih parts hparts len ch hch
    next hs =>
      split at hch
      next hlong =>
        rcases List.mem_append.mp hch with h1 | h2
        · rcases List.mem_append.mp h1 with ha | hb
          · split at ha
            · simp at ha
            next hp =>
              simp only [List.mem_singleton] at ha
              subst ha
              exact joinSp_ne_nil parts hp hparts
          · exact hardSplitAux_ne_nil maxLen hM s [] maxLen (by simp) ch hb
        · exact ih [] (by simp) 0 ch h2
      next hshort =>
        split at hch
        next hp =>
          split at hch
          next hfits =>
            apply ih (parts ++ [s]) ?_ _ ch hch
            intro p hpmem
            rcases List.mem_append.mp hpmem with h1 | h1
            · exact hparts p h1
            · simp only [List.mem_singleton] at h1
              subst h1
              exact hs
          next hnofit =>
            simp only [List.nil_append] at hch
            apply ih [s] ?_ s.length ch hch
            intro p hpmem
            simp only [List.mem_singleton] at hpmem
            subst hpmem
            exact hs
        next hp =>
          split at hch
          next hfits =>
            apply ih (parts ++ [s]) ?_ _ ch hch
            intro p hpmem
            rcases List.mem_append.mp hpmem with h1 | h1
            · exact hparts p h1
            · simp only [List.mem_singleton] at h1
              subst h1
              exact hs
          next hnofit =>
            rcases List.mem_append.mp hch with h1 | h2
            · simp only [List.mem_singleton] at h1
              subst h1
              exact joinSp_ne_nil parts hp hparts
            · apply ih [s] ?_ s.length ch h2
              intro p hpmem
              simp only [List.mem_singleton] at hpmem
              subst hpmem
              exact hs

theorem buildChunks_ne_nil (maxLen : Nat) (hM : 1 ≤ maxLen) (text : List Char) :
    ∀ ch ∈ buildChunks maxLen text, ch ≠ [] := by
  intro ch hch
  simp only [buildChunks] at hch
  split at hch
  · simp at hch
  · exact packChunks_ne_nil maxLen hM _ [] (by simp) 0 ch hch

/-- C6: empty or whitespace-only cleaned content yields zero documents for
the item without raising, and no emitted document ever has empty text. -/
theorem C6_empty_content_skipped_no_empty_chunks :
    (∀ (maxLen : Nat) (ca : String) (it : NormalizerItemIn),
        (∀ x ∈ it.cleaned_content, isSpace x = true) →
        normalizeItem maxLen ca it = Except.ok []) ∧
    (∀ (maxLen : Nat) (ca : String) (it : NormalizerItemIn)
        (docs : List NormalizedDocument), 1 ≤ maxLen →
        normalizeItem maxLen ca it = Except.ok docs →
        ∀ d ∈ docs, d.text ≠ []) := by
  constructor
  · intro maxLen ca it hws
    simp [normalizeItem, buildChunks_all_space maxLen it.cleaned_content hws]
  · intro maxLen ca it docs hM h d hd
    obtain ⟨_, _, h3, _⟩ := normalizeItem_ok_spec maxLen ca it docs h
    have hmem : d.text ∈ buildChunks maxLen it.cleaned_content := by
      rw [← h3]
      exact List.mem_map_of_mem _ hd
    exact buildChunks_ne_nil maxLen hM it.cleaned_content d.text hmem

/-- C6 witness: a whitespace-only item yields no documents; a concrete
emitted document has non-empty text. -/
theorem C6_witness :
    normalizeItem 1000 "T" itemWs = Except.ok [] ∧ docFile0.text ≠ [] := by
  constructor
  · exact C6_empty_content_skipped_no_empty_chunks.1 1000 "T" itemWs (by decide)
  · exact C6_empty_content_skipped_no_empty_chunks.2 1000 "T" itemFile docsFile
      (by decide) (by decide) docFile0 (by decide)

/-! ### Metadata path fallback (C7) -/

theorem buildDocs_ok_of_path (it : NormalizerItemIn) (ca title : String)
    (total : Nat) (hpath : metaPath it ≠ "") :
    ∀ (chunks : List (List Char)) (idx : Nat),
      ∃ ds, buildDocs it ca title total idx chunks = Except.ok ds := by
  intro chunks
  induction chunks with
  | nil => intro idx; exact ⟨[], rfl⟩
  | cons ch rest ih =>
    intro idx
    obtain ⟨ds, hds⟩ := ih (idx + 1)
    refine ⟨{ external_id := externalId it idx, text := ch,
              metadata := ⟨it.source, metaPath it, it.url, title, ca, idx, total⟩ } :: ds, ?_⟩
    simp only [buildDocs, mkMetadata, if_neg hpath, hds]

theorem normalizeItem_isOk (maxLen : Nat) (ca : String) (it : NormalizerItemIn)
    (hpath : metaPath it ≠ "") : isOkE (normalizeItem maxLen ca it) = true := by
  simp only [normalizeItem]
  split
  · rfl
  · obtain ⟨ds, hds⟩ := buildDocs_ok_of_path it ca (deriveTitle it) _ hpath _ 0
    rw [hds]
    rfl

/-- C7 (amended): each emitted chunk's `metadata.path` equals `item.path`
when it is set, else the URL string when set, else the empty string — but a
chunk is emitted only when that derived path is non-empty; an empty derived
path fails `Metadata` validation and `normalize` raises for that item. -/
theorem C7_meta_path_fallback :
    (∀ (maxLen : Nat) (ca : String) (it : NormalizerItemIn)
        (docs : List NormalizedDocument),
        normalizeItem maxLen ca it = Except.ok docs →
        ∀ d ∈ docs, d.metadata.path = metaPath it) ∧
    (∀ (maxLen : Nat) (ca : String) (it : NormalizerItemIn),
        metaPath it ≠ "" → isOkE (normalizeItem maxLen ca it) = true) := by
  constructor
  · intro maxLen ca it docs h d hd
    exact ((normalizeItem_ok_spec maxLen ca it docs h).2.2.2 d hd).2.2
  · intro maxLen ca it hpath
    exact normalizeItem_isOk maxLen ca it hpath

/-- C7 witness: the fallback and the success condition at a concrete item. -/
theorem C7_witness :
    docFile0.metadata.path = metaPath itemFile ∧
    isOkE (normalizeItem 1000 "T" itemFile) = true := by
  constructor
  · exact C7_meta_path_fallback.1 1000 "T" itemFile docsFile (by decide) docFile0 (by decide)
  · exact C7_meta_path_fallback.2 1000 "T" itemFile (by decide)

/-! ### Clean equals whitespace normalization without entities, tags, CSS (C8) -/

theorem entityMatch_none (c : Char) (rest : List Char) (hc : c ≠ '&') :
    entityMatch (c :: rest) = none := by
  simp [entityMatch, hc]

theorem unescapeF_id : ∀ (fuel : Nat) (s : List Char),
    '&' ∉ s → unescapeF fuel s = s := by
  intro fuel
  induction fuel with
  | zero => intro s _; cases s <;> rfl
  | succ fuel ih =>
    intro s hs
    cases s with
    | nil => rfl
    | cons c rest =>
      have hc : c ≠ '&' := fun h => hs (by simp [h])
      have hrest : '&' ∉ rest := fun h => hs (by simp [h])
      simp only [unescapeF, entityMatch_none c rest hc]
      rw [ih rest hrest]

theorem matchStyleScript_none (c : Char) (rest : List Char) (hc : c ≠ '<') :
    matchStyleScript (c :: rest) = none := by
  simp [matchStyleScript, hc]

theorem matchComment_none (c : Char) (rest : List Char) (hc : c ≠ '<') :
    matchComment (c :: rest) = none := by
  simp only [matchComment]
  rw [if_neg]
  intro h
  have hhead := congrArg (fun l => l.head?) h
  simp at hhead
  exact hc hhead

theorem matchTag_none (c : Char) (rest : List Char) (hc : c ≠ '<') :
    matchTag (c :: rest) = none := by
  simp [matchTag, hc]

theorem subSpaceF_id (m : List Char → Option Nat)
    (hm : ∀ (c : Char) (rest : List Char), c ≠ '<' → m (c :: rest) = none) :
    ∀ (fuel : Nat) (s : List Char), '<' ∉ s → subSpaceF m fuel s = s := by
  intro fuel
  induction fuel with
  | zero => intro s _; cases s <;> rfl
  | succ fuel ih =>
    intro s hs
    cases s with
    | nil => rfl
    | cons c rest =>
      have hc : c ≠ '<' := fun h => hs (by simp [h])
      have hrest : '<' ∉ rest := fun h => hs (by simp [h])
      simp only [subSpaceF, hm c rest hc]
      rw [ih rest hrest]

theorem subSpace_id (m : List Char → Option Nat)
    (hm : ∀ (c : Char) (rest : List Char), c ≠ '<' → m (c :: rest) = none)
    (s : List Char) (hs : '<' ∉ s) : subSpace m s = s :=
  subSpaceF_id m hm s.length s hs

theorem cssFix_id (t : List Char) (h : cssPass t = t) : cssFix t = t := by
  simp [cssFix, h]

/-- C8 (amended): for every input with no HTML entities (no `&`), no markup
tags (no `<`), and no CSS-rule-like `selector{property:value}` fragment
(i.e. the CSS-removal pass leaves the text unchanged), the cleaner computes
exactly whitespace normalization. -/
theorem C8_amended_clean_is_normalize_whitespace (x : List Char)
    (h1 : '&' ∉ x) (h2 : '<' ∉ x) (h3 : cssPass x = x) :
    cleanText x = normalizeWhitespace x := by
  by_cases hx : x = []
  · subst hx; rfl
  · simp only [cleanText, normalizeWhitespace, if_neg hx]
    rw [show htmlUnescape x = x from unescapeF_id x.length x h1]
    rw [subSpace_id _ matchStyleScript_none x h2,
        subSpace_id _ matchComment_none x h2,
        subSpace_id _ matchTag_none x h2,
        cssFix_id x h3]

/-- C8 witness: a concrete entity-free, tag-free, CSS-free input. -/
theorem C8_witness :
    cleanText "Hello   world".toList = normalizeWhitespace "Hello   world".toList :=
  C8_amended_clean_is_normalize_whitespace "Hello   world".toList
    (by decide) (by decide) (by decide)

end Docflow
